import Mathlib

/-!
Verification development for the SEO blade analysis tool
(scripts/analyze-seo.js). Each definition below is a shallow embedding of
a function of that script: strings are modelled as lists of characters,
JavaScript numbers as integers or rationals, and the small regular
expressions used by the script as explicit scanners with the same
left-to-right, leftmost-match semantics. Floating point arithmetic of the
source (score arithmetic on small integers, jaccard ratios) is modelled
with exact rational arithmetic.
-/

set_option maxRecDepth 40000

namespace Seo

/-- Severity of an issue, as in the issue records of analyze-seo.js. -/
inductive Severity where
  | error
  | warning
  | suggestion
deriving DecidableEq, Repr

/-- Payload of the `details` field of an issue record; only the variants
needed by the issues modelled here are included. -/
inductive Details where
  | nodetail
  | fromTo (f t : Int)
  | otherSim (other : String) (similarity : ℚ)
  | files (paths : List String)
deriving DecidableEq, Repr

/-- An issue record: `type`, `severity` and `details` fields of the objects
pushed by addIssue / issues.push in analyze-seo.js. The free-text `message`
and the always-null `line` field carry no information used by the claims
and are omitted. -/
structure Issue where
  type : String
  severity : Severity
  details : Details
deriving DecidableEq, Repr

/-! ## Scorer (scoreIssues, scoreProject; lines 891-910) -/

/-- Per-severity deduction applied by scoreIssues: the three `if` branches
subtract 10 for an error, 5 for a warning and 2 for a suggestion. -/
def deduction : Severity → Int
  | .error => 10
  | .warning => 5
  | .suggestion => 2

/-- scoreIssues (lines 891-899): start from 100, subtract the deduction of
each issue in turn, then clamp the result into [0, 100] with
Math.max(0, Math.min(100, score)). -/
def scoreIssues (list : List Issue) : Int :=
  let score := list.foldl (fun s issue => s - deduction issue.severity) 100
  max 0 (min 100 score)

/-- Restatement of the scoring formula in the words of the specification:
clamp(100 - sum of per-issue deductions, 0, 100). Used to compare the
source's fold against the spec formula. -/
def scoreIssuesSpec (list : List Issue) : Int :=
  max 0 (min 100 (100 - (list.map (fun issue => deduction issue.severity)).sum))

/-- A page report, reduced to the fields scoreProject reads: its path and
the score previously assigned by scoreFile. -/
structure PageReport where
  path : String
  score : Int
deriving DecidableEq, Repr

/-- JavaScript Math.round on the exact value t / n: round half towards
positive infinity, i.e. the floor of the value plus one half. -/
def jsRound (t : Int) (n : Nat) : Int :=
  ⌊(t : ℚ) / (n : ℚ) + 1/2⌋

/-- scoreProject (lines 905-910): sum the page scores, take the rounded
mean (100 for an empty file list), subtract the project penalty
100 - scoreIssues(projectIssues), and clamp into [0, 100]. -/
def scoreProject (files : List PageReport) (projectIssues : List Issue) : Int :=
  let total := files.foldl (fun s f => s + f.score) 0
  let base : Int := if files.length = 0 then 100 else jsRound total files.length
  let projectPenalty := 100 - scoreIssues projectIssues
  max 0 (min 100 (base - projectPenalty))

/-- The project-score formula in the words of the specification:
clamp(round(mean of the page scores) - (100 - score(project issues)), 0, 100),
with the mean taken as an exact rational and rounded half up. -/
def scoreProjectSpec (files : List PageReport) (projectIssues : List Issue) : Int :=
  max 0 (min 100
    (⌊(((files.map PageReport.score).sum : ℚ) / (files.length : ℚ)) + 1/2⌋
      - (100 - scoreIssues projectIssues)))

/-! ## Heading rules (scanHtml lines 219-241)

A parsed page is abstracted by the list of its heading levels in document
order (the parser collaborator returns the h1..h6 elements in document
order; `<h1>A</h1><h3>B</h3>` yields the level list [1, 3]). The h1 count
used by the missing_h1/multiple_h1 rules equals the number of level-1
entries of that list. -/

/-- The adjacent-pair loop of the heading rules (lines 234-240): for every
consecutive pair of heading levels whose level increases by more than one,
a heading_jump warning recording the two levels. -/
def headingJumpIssues : List Int → List Issue
  | a :: b :: rest =>
      (if 1 < b - a then [⟨"heading_jump", .warning, .fromTo a b⟩] else []) ++
        headingJumpIssues (b :: rest)
  | _ => []

/-- The heading rules of scanHtml (lines 219-241) on the list of heading
levels in document order: zero h1 gives a missing_h1 error, more than one
a multiple_h1 warning; if any heading exists, a first level above one gives
a heading_starts_not_h1 error, and each adjacent upward jump of more than
one level gives a heading_jump warning. -/
def headingIssues (levels : List Int) : List Issue :=
  let h1count := levels.countP (fun l => l == 1)
  (if h1count = 0 then [⟨"missing_h1", .error, .nodetail⟩] else []) ++
  (if 1 < h1count then [⟨"multiple_h1", .warning, .nodetail⟩] else []) ++
  (match levels with
   | [] => []
   | first :: _ =>
       (if 1 < first then [⟨"heading_starts_not_h1", .error, .nodetail⟩] else []) ++
         headingJumpIssues levels)

/-! ## Route guessing (guessPath, lines 106-112)

The function receives the path of the view file relative to the view root
(the path.relative / backslash normalisation of line 107 is the filesystem
collaborator); strings are modelled as lists of characters. -/

/-- The ".blade.php" extension removed by line 108. -/
def bladeExt : List Char := ".blade.php".data

/-- The "/index" suffix collapsed by line 110. -/
def indexSuffix : List Char := "/index".data

/-- Line 108: relative.replace of a trailing ".blade.php" with the empty
string removes the extension when present. -/
def stripBladeExt (rel : List Char) : List Char :=
  if bladeExt.isSuffixOf rel then rel.take (rel.length - bladeExt.length) else rel

/-- Lines 109-111 on the extension-free path: the bare index file maps to
the root route, a path ending in "/index" collapses to its parent route,
and any other path is prefixed with a slash. -/
def routeFromNoExt (noExt : List Char) : List Char :=
  if noExt = "index".data then "/".data
  else if indexSuffix.isSuffixOf noExt then
    '/' :: noExt.take (noExt.length - indexSuffix.length)
  else '/' :: noExt

/-- guessPath (lines 106-112): strip the extension, then derive the route. -/
def guessPath (rel : List Char) : List Char :=
  routeFromNoExt (stripBladeExt rel)

/-! ## Jaccard similarity and the duplicate-content pass
(jaccard lines 881-889, runProjectWideChecks lines 858-878) -/

/-- jaccard (lines 881-889): zero when either set is empty; otherwise the
intersection count (the forEach loop counting members of setA present in
setB) divided by size(A) + size(B) - intersection, with the defensive
zero-union branch of line 888. -/
def jaccard (A B : Finset String) : ℚ :=
  if A.card = 0 ∨ B.card = 0 then 0
  else if (A.card : ℚ) + (B.card : ℚ) - ((A ∩ B).card : ℚ) = 0 then 0
  else ((A ∩ B).card : ℚ) / ((A.card : ℚ) + (B.card : ℚ) - ((A ∩ B).card : ℚ))

/-- Number(similarity.toFixed(2)) for the non-negative similarities that
occur here: round to the nearest hundredth, half up. -/
def round2 (q : ℚ) : ℚ := (⌊q * 100 + 1/2⌋ : ℚ) / 100

/-- The per-page entry of the analysis cache (the digest built at the end
of scanHtml), reduced to the fields the project-wide checks read. -/
structure Digest where
  path : String
  tokens : Finset String
  wordCount : Nat
  title : String
  description : String
deriving DecidableEq

/-- The duplicate_content warning attached to a page (line 871/874): it
references the other page's path and the similarity rounded to two
decimals. -/
def dupContentIssue (other : String) (sim : ℚ) : Issue :=
  ⟨"duplicate_content", .warning, .otherSim other sim⟩

/-- The body of the pairwise duplicate-content loop (lines 862-876) for one
ordered pair: skip the pair when either word count is below 200; when the
jaccard similarity exceeds 0.85 attach a warning to each of the two pages,
each referencing the other. The result pairs each issue with the path of
the page it is attached to. -/
def pairDup (A B : Digest) : List (String × Issue) :=
  if A.wordCount < 200 ∨ B.wordCount < 200 then []
  else if 17/20 < jaccard A.tokens B.tokens then
    [(A.path, dupContentIssue B.path (round2 (jaccard A.tokens B.tokens))),
     (B.path, dupContentIssue A.path (round2 (jaccard A.tokens B.tokens)))]
  else []

/-- The double loop of lines 859-878 over the entries of the analysis
cache: every unordered pair (i, j) with i before j is examined once, in
order. -/
def duplicateContentIssues : List Digest → List (String × Issue)
  | [] => []
  | d :: rest =>
      rest.foldr (fun e acc => pairDup d e ++ acc) [] ++ duplicateContentIssues rest

/-! ## Duplicate title / description grouping
(runProjectWideChecks lines 793-824) -/

/-- Map.set(key, [...(map.get(key) or []), path]): append the path to the
key's bucket, keeping the key at its original insertion position, or append
a new bucket at the end. JavaScript Map iteration order is insertion
order, so the map is modelled as an ordered association list. -/
def insertAppend (k v : String) : List (String × List String) → List (String × List String)
  | [] => [(k, [v])]
  | (k', vs) :: rest =>
      if k' = k then (k', vs ++ [v]) :: rest else (k', vs) :: insertAppend k v rest

/-- The grouping loop of lines 798-813 for one metadata key (title or
description): a page enters the map only when its normalized key text is
truthy, i.e. nonempty. -/
def metaGroupMap (key : Digest → String) (ds : List Digest) : List (String × List String) :=
  ds.foldl (fun m d => if key d ≠ "" then insertAppend (key d) d.path m else m) []

/-- The issue-emission loops of lines 815-824: every bucket with more than
one member produces one project issue listing the member paths. -/
def dupMetaIssues (tag : String) (m : List (String × List String)) : List Issue :=
  m.filterMap (fun kv => if 1 < kv.2.length then some ⟨tag, .warning, .files kv.2⟩ else none)

/-- duplicate_title project issues (lines 802-804 and 815-819). -/
def duplicateTitleIssues (ds : List Digest) : List Issue :=
  dupMetaIssues "duplicate_title" (metaGroupMap Digest.title ds)

/-- duplicate_meta_description project issues (lines 805-807 and 821-824). -/
def duplicateDescriptionIssues (ds : List Digest) : List Issue :=
  dupMetaIssues "duplicate_meta_description" (metaGroupMap Digest.description ds)

/-! ## Generic string scanning

Shared machinery for the regular-expression replaces of stripBlade and for
the title fix of applyFixes. All scanners walk the character list left to
right and take the leftmost match, as the JavaScript regex engine does. -/

/-- Whether pat occurs as a contiguous substring of s. -/
def containsSeq (pat : List Char) : List Char → Bool
  | [] => pat.isPrefixOf ([] : List Char)
  | c :: t => pat.isPrefixOf (c :: t) || containsSeq pat t

/-- Split s at the first (leftmost) occurrence of pat: returns the part
before the occurrence and the part after it. -/
def splitAtFirst (pat : List Char) : List Char → Option (List Char × List Char)
  | [] => if pat.isPrefixOf ([] : List Char) then some ([], []) else none
  | c :: t =>
      if pat.isPrefixOf (c :: t) then some ([], (c :: t).drop pat.length)
      else (splitAtFirst pat t).map (fun pr => (c :: pr.1, pr.2))

/-- One global lazy replace pass, fuelled: the JavaScript global replace of
the pattern "opn, shortest run of any characters, cls" by repl. Each match
starts at the leftmost occurrence of opn; the lazy middle ends at the first
following occurrence of cls; scanning resumes after the match. If the
leftmost opn has no cls after it there is no further match and the rest of
the text passes through unchanged. The fuel is an upper bound on the
number of matches; one unit is spent per match, and jsLazyReplace supplies
the length of the text, which suffices because every match consumes at
least one character. -/
def jsLazyReplaceAux (opn cls repl : List Char) : Nat → List Char → List Char
  | 0, s => s
  | f + 1, s =>
      match splitAtFirst opn s with
      | none => s
      | some (pre, rest) =>
          match splitAtFirst cls rest with
          | none => s
          | some (_, after) => pre ++ repl ++ jsLazyReplaceAux opn cls repl f after

/-- Global lazy replace of opn...cls spans by repl (see jsLazyReplaceAux). -/
def jsLazyReplace (opn cls repl s : List Char) : List Char :=
  jsLazyReplaceAux opn cls repl s.length s

/-! ## Template normalizer (stripBlade, lines 41-46) -/

/-- The fixed sentinel substituted for every interpolation span. -/
def sentinel : List Char := "__DYNAMIC__".data

/-- Opening marker of a double-brace interpolation. -/
def dOpen : List Char := "\x7b\x7b".data

/-- Closing marker of a double-brace interpolation. -/
def dClose : List Char := "\x7d\x7d".data

/-- Opening marker of a raw (unescaped) interpolation. -/
def rOpen : List Char := "\x7b!!".data

/-- Closing marker of a raw (unescaped) interpolation. -/
def rClose : List Char := "!!\x7d".data

/-- Case-insensitive prefix test, character by character (the /i flag). -/
def ciPrefixB : List Char → List Char → Bool
  | [], _ => true
  | _ :: _, [] => false
  | p :: ps, c :: cs => (p.toLower == c.toLower) && ciPrefixB ps cs

/-- JavaScript word characters, the class matched by \w and refused at a
\b boundary after a word character. -/
def isWordChar (c : Char) : Bool := c.isAlphanum || c == '_'

/-- True when a directive name ending at this point is followed by a word
boundary: the next character is absent or not a word character. -/
def boundaryOk : List Char → Bool
  | [] => true
  | c :: _ => !(isWordChar c)

/-- The directive names of the alternation of line 43, in source order. -/
def directiveNames : List (List Char) :=
  ["if".data, "elseif".data, "else".data, "endif".data, "foreach".data,
   "endforeach".data, "for".data, "endfor".data, "while".data, "endwhile".data,
   "switch".data, "case".data, "break".data, "default".data, "endswitch".data,
   "extends".data, "section".data, "endsection".data, "yield".data,
   "include".data, "includeIf".data, "includeWhen".data, "includeUnless".data,
   "stack".data, "push".data, "endpush".data, "prepend".data, "endprepend".data,
   "csrf".data, "method".data, "vite".data, "once".data, "endonce".data,
   "production".data, "endproduction".data, "verbatim".data, "endverbatim".data,
   "php".data, "endphp".data, "auth".data, "endauth".data, "guest".data,
   "endguest".data, "props".data, "pushonce".data, "endpushonce".data]

/-- After an at-sign, try the directive alternation: the first name that is
a case-insensitive prefix and is followed by a word boundary matches (the
\b makes the matching alternative unique); returns the text after the
name. -/
def matchDirective (t : List Char) : Option (List Char) :=
  directiveNames.findSome? (fun nm =>
    if ciPrefixB nm t && boundaryOk (t.drop nm.length) then some (t.drop nm.length)
    else none)

/-- The directive-removal replace of line 43, fuelled by the text length
(every step consumes at least one character): each at-sign followed by a
directive name and a word boundary is removed together with the remainder
of its line. -/
def stripDirectivesAux : Nat → List Char → List Char
  | 0, s => s
  | _ + 1, [] => []
  | f + 1, c :: t =>
      if c == '@' then
        match matchDirective t with
        | some rest => stripDirectivesAux f (rest.dropWhile (fun ch => !(ch == '\n')))
        | none => c :: stripDirectivesAux f t
      else c :: stripDirectivesAux f t

/-- Directive removal (line 43). -/
def stripDirectives (s : List Char) : List Char :=
  stripDirectivesAux s.length s

/-- The double-brace interpolation replace of line 44. -/
def replaceDouble (s : List Char) : List Char :=
  jsLazyReplace dOpen dClose sentinel s

/-- The raw-interpolation replace of line 45. -/
def replaceRaw (s : List Char) : List Char :=
  jsLazyReplace rOpen rClose sentinel s

/-- stripBlade (lines 41-46): remove directives, then replace double-brace
interpolation spans, then raw interpolation spans, each by the sentinel. -/
def stripBlade (s : List Char) : List Char :=
  replaceRaw (replaceDouble (stripDirectives s))

/-! ## Title rule and title fix (scanHtml lines 243-247, applyFixes
lines 454-469)

The HTML parsing of scanHtml is an external collaborator
(node-html-parser); for the simple documents handled here it is modelled
textually: the first title element of the document, located exactly as the
title regular expression of applyFixes locates it. textContent collapses
whitespace runs and trims, so the title text is empty exactly when the raw
element content is all whitespace. -/

/-- JavaScript whitespace class \s (the characters relevant to this
source: space, tab, newline, carriage return, vertical tab, form feed). -/
def jsWs (c : Char) : Bool :=
  c == ' ' || c == '\t' || c == '\n' || c == '\r' || c == '\x0b' || c == '\x0c'

/-- Case-insensitive variant of splitAtFirst that also returns the matched
original characters: (before, matched, after). -/
def splitAtFirstCI (pat : List Char) : List Char → Option (List Char × List Char × List Char)
  | [] => if ciPrefixB pat ([] : List Char) then some ([], [], []) else none
  | c :: t =>
      if ciPrefixB pat (c :: t) then
        some ([], (c :: t).take pat.length, (c :: t).drop pat.length)
      else (splitAtFirstCI pat t).map (fun pr => (c :: pr.1, pr.2.1, pr.2.2))

/-- Attempt, at the current position, the opening part of the title regular
expression of line 455: a case-insensitive title open tag, a word
boundary, the attribute run of characters other than the closing angle
bracket, and the closing angle bracket. Returns the matched opening tag
and the rest. -/
def matchTitleOpenAt (s : List Char) : Option (List Char × List Char) :=
  if ciPrefixB "<title".data s then
    let rest := s.drop 6
    if boundaryOk rest then
      let attrs := rest.takeWhile (fun ch => !(ch == '>'))
      match rest.drop attrs.length with
      | '>' :: tail => some (s.take (6 + attrs.length + 1), tail)
      | _ => none
    else none
  else none

/-- Leftmost match of the title regular expression of line 455: opening
tag, lazily matched inner text, closing tag. Returns
(before, opening, inner, closing, after). At each position the whole
pattern is attempted; on failure the scan advances one character. -/
def findTitle : List Char → Option (List Char × List Char × List Char × List Char × List Char)
  | [] => none
  | c :: t =>
      match matchTitleOpenAt (c :: t) with
      | some (opn, rest) =>
          match splitAtFirstCI "</title>".data rest with
          | some (inner, cls, post) => some ([], opn, inner, cls, post)
          | none => (findTitle t).map (fun r => (c :: r.1, r.2.1, r.2.2.1, r.2.2.2.1, r.2.2.2.2))
      | none => (findTitle t).map (fun r => (c :: r.1, r.2.1, r.2.2.1, r.2.2.2.1, r.2.2.2.2))

/-- The missing_title rule of scanHtml (lines 243-247) on the normalized
document: the title is missing when no title element exists or its text
content is empty, i.e. the raw inner text is all whitespace. -/
def titleMissingB (html : List Char) : Bool :=
  match findTitle html with
  | none => true
  | some (_, _, inner, _, _) => inner.all jsWs

/-- JavaScript String.replace with a plain string pattern: replace the
first occurrence of pat by repl. An empty pat occurs at position zero, so
the replacement is prepended - this detail is what breaks the title fix. -/
def replaceFirstSub (pat repl s : List Char) : List Char :=
  match splitAtFirst pat s with
  | some (a, b) => a ++ repl ++ b
  | none => s

/-- Attempt, at the current position, the head-open regular expression of
line 436 (no word boundary in the source pattern): case-insensitive head
open tag, attribute run, closing angle bracket. -/
def matchHeadOpenAt (s : List Char) : Option (List Char × List Char) :=
  if ciPrefixB "<head".data s then
    let rest := s.drop 5
    let attrs := rest.takeWhile (fun ch => !(ch == '>'))
    match rest.drop attrs.length with
    | '>' :: tail => some (s.take (5 + attrs.length + 1), tail)
    | _ => none
  else none

/-- Leftmost match of the head-open regular expression:
(before, matched tag, after). -/
def findHeadOpen : List Char → Option (List Char × List Char × List Char)
  | [] => none
  | c :: t =>
      match matchHeadOpenAt (c :: t) with
      | some (tag, rest) => some ([], tag, rest)
      | none => (findHeadOpen t).map (fun r => (c :: r.1, r.2.1, r.2.2))

/-- insertIntoHead (lines 435-443) for one snippet: when a head open tag
exists, insert a newline, four spaces and the snippet right after it. -/
def insertIntoHeadSnippet (snippet s : List Char) : Option (List Char) :=
  (findHeadOpen s).map (fun r => r.1 ++ r.2.1 ++ '\n' :: "    ".data ++ snippet ++ r.2.2)

/-- JavaScript String.trim. -/
def jsTrim (s : List Char) : List Char :=
  ((s.dropWhile jsWs).reverse.dropWhile jsWs).reverse

/-- The title branch of applyFixes (lines 454-469), given whether the
missing_title issue is present: when the title regular expression matches,
the callback leaves a non-blank title alone and otherwise replaces the
first occurrence of the inner text inside the matched text by the
placeholder (for an exactly empty inner text, JavaScript's replace of the
empty string prepends the placeholder before the opening tag); when no
title element matches, a placeholder title element is inserted into the
head. Returns the updated source and the number of title fixes recorded
by addFix. -/
def applyTitleFix (hasMissingTitle : Bool) (raw : List Char) : List Char × Nat :=
  if hasMissingTitle then
    match findTitle raw with
    | some (pre, opn, inner, cls, post) =>
        if inner ≠ [] ∧ jsTrim inner ≠ [] then (raw, 0)
        else (pre ++ replaceFirstSub inner "TODO".data (opn ++ inner ++ cls) ++ post, 1)
    | none =>
        match insertIntoHeadSnippet "<title>TODO</title>".data raw with
        | some s2 => (s2, 1)
        | none => (raw, 0)
  else (raw, 0)

/-- One analysis-plus-fix round for the title fix kind, as the pipeline
runs it (scanBladeFile lines 587-633): the issues are computed by scanHtml
on the stripBlade-normalized source, and applyFixes then edits the raw
source. -/
def titleFixRound (raw : List Char) : List Char × Nat :=
  applyTitleFix (titleMissingB (stripBlade raw)) raw

/-! ## Robots file check (scanRobots, lines 673-709) -/

/-- Case-insensitive substring test (a /i regex of a literal pattern). -/
def ciContainsSeq (pat : List Char) : List Char → Bool
  | [] => ciPrefixB pat ([] : List Char)
  | c :: t => ciPrefixB pat (c :: t) || ciContainsSeq pat t

/-- Test of a regex "literal pattern, optional whitespace, one character"
(the User-agent wildcard and Disallow-all patterns): somewhere in the
text, the pattern case-insensitively, then a whitespace run, then the
given character. -/
def regexTestCIWs (pat : List Char) (c : Char) : List Char → Bool
  | [] => false
  | x :: t =>
      (ciPrefixB pat (x :: t) && ((((x :: t).drop pat.length).dropWhile jsWs).head? == some c))
        || regexTestCIWs pat c t

/-- Splitting on the blank-line regex (line 694): a separator is a newline,
a greedy run of whitespace, and a final newline; the greedy middle
stretches to the last newline of the whitespace run, and trailing
non-newline whitespace stays with the next block. Fuelled by the text
length; every step consumes at least one character. -/
def splitBlocksAux : Nat → List Char → List Char → List (List Char)
  | 0, cur, s => [cur.reverse ++ s]
  | _ + 1, cur, [] => [cur.reverse]
  | f + 1, cur, c :: t =>
      if c == '\n' then
        let ws := t.takeWhile jsWs
        if '\n' ∈ ws then
          let trailing := (ws.reverse.takeWhile (fun ch => !(ch == '\n'))).length
          [cur.reverse] ++ splitBlocksAux f [] (t.drop (ws.length - trailing))
        else splitBlocksAux f (c :: cur) t
      else splitBlocksAux f (c :: cur) t

/-- raw.split of the blank-line regex (line 694). -/
def splitBlocks (s : List Char) : List (List Char) :=
  splitBlocksAux s.length [] s

/-- First match of the sitemap-URL regex (line 704): the literal pattern
case-insensitively, a whitespace run, then a nonempty run of
non-whitespace characters, which is the captured URL. A position where no
nonempty run follows does not match and the scan continues. -/
def sitemapUrlToken : List Char → Option (List Char)
  | [] => none
  | c :: t =>
      if ciPrefixB "Sitemap:".data (c :: t) then
        let tok := (((c :: t).drop 8).dropWhile jsWs).takeWhile (fun ch => !(jsWs ch))
        if tok = [] then sitemapUrlToken t else some tok
      else sitemapUrlToken t

/-- The placeholder robots file written in fix mode (lines 679-681): full
access for every user agent and a sitemap pointer, towards the app URL
when known. -/
def robotsDefaultContents (appUrl : Option (List Char)) : List Char :=
  "User-agent: *\n".data ++ "Disallow:\n".data ++ "\n".data ++ "Sitemap: ".data ++
    (match appUrl with
     | some u => u ++ "/sitemap.xml".data
     | none => "TODO".data) ++ "\n".data

/-- scanRobots (lines 673-709) as a pure function of the robots file
content (none when the file is unreadable), the fix-mode flag and the app
URL. Returns the project issues it pushes and the file contents it
creates, if any. In the absent case it returns early: a missing_robots
error, plus, in fix mode, the placeholder file and a robots_created
suggestion. In the present case it runs the four content checks. The
filesystem path details of the source issues are the filesystem
collaborator and are omitted. -/
def scanRobots (raw : Option (List Char)) (fixMode : Bool) (appUrl : Option (List Char)) :
    List Issue × Option (List Char) :=
  match raw with
  | none =>
      if fixMode then
        ([⟨"missing_robots", .error, .nodetail⟩, ⟨"robots_created", .suggestion, .nodetail⟩],
         some (robotsDefaultContents appUrl))
      else ([⟨"missing_robots", .error, .nodetail⟩], none)
  | some r =>
      let ua := if ciContainsSeq "User-agent:".data r then []
                else [(⟨"robots_missing_user_agent", .error, .nodetail⟩ : Issue)]
      let sm := if ciContainsSeq "Sitemap:".data r then []
                else [(⟨"robots_missing_sitemap", .warning, .nodetail⟩ : Issue)]
      let da := (splitBlocks r).foldr (fun b acc =>
          (if regexTestCIWs "User-agent:".data '*' b && regexTestCIWs "Disallow:".data '/' b
           then [(⟨"robots_disallow_all", .warning, .nodetail⟩ : Issue)] else []) ++ acc) []
      let mm := match appUrl with
        | none => []
        | some u =>
            match sitemapUrlToken r with
            | some tok =>
                if u.isPrefixOf tok then []
                else [(⟨"robots_sitemap_mismatch", .warning, .nodetail⟩ : Issue)]
            | none => []
      (ua ++ sm ++ da ++ mm, none)

/-- Split a text into its newline-separated lines. -/
def splitLinesCh : List Char → List (List Char)
  | [] => [[]]
  | c :: t =>
      if c == '\n' then [] :: splitLinesCh t
      else
        match splitLinesCh t with
        | [] => [[c]]
        | l :: ls => (c :: l) :: ls

/-- Whether some line of the text starts with the given prefix. -/
def hasLineStarting (pre s : List Char) : Bool :=
  (splitLinesCh s).any (fun l => pre.isPrefixOf l)

/-! ## Theorems -/

theorem foldl_sub_deduction (l : List Issue) (c : Int) :
    l.foldl (fun s issue => s - deduction issue.severity) c
      = c - (l.map fun issue => deduction issue.severity).sum := by
  induction l generalizing c with
  | nil => simp
  | cons a t ih => simp only [List.foldl_cons, ih, List.map_cons, List.sum_cons]; ring

theorem deduction_nonneg (sev : Severity) : 0 ≤ deduction sev := by
  cases sev <;> simp [deduction]

theorem scoreIssues_eq_spec (l : List Issue) : scoreIssues l = scoreIssuesSpec l := by
  unfold scoreIssues scoreIssuesSpec
  rw [foldl_sub_deduction]

/-- C1: the page score function equals clamp(100 - sum of per-issue
deductions, 0, 100) with deductions 10/5/2 for error/warning/suggestion;
hence the empty list scores 100, every score lies in [0, 100], and
appending an issue never increases the score. -/
theorem claim_C1 :
    (∀ l : List Issue, scoreIssues l = scoreIssuesSpec l) ∧
    scoreIssues [] = 100 ∧
    (∀ l : List Issue, 0 ≤ scoreIssues l ∧ scoreIssues l ≤ 100) ∧
    (∀ (l : List Issue) (i : Issue), scoreIssues (l ++ [i]) ≤ scoreIssues l) := by
  refine ⟨scoreIssues_eq_spec, by decide, ?_, ?_⟩
  · intro l
    rw [scoreIssues_eq_spec]
    unfold scoreIssuesSpec
    constructor
    · exact le_max_left 0 _
    · exact max_le (by norm_num) (min_le_left 100 _)
  · intro l i
    rw [scoreIssues_eq_spec, scoreIssues_eq_spec]
    unfold scoreIssuesSpec
    have hd : 0 ≤ deduction i.severity := deduction_nonneg i.severity
    have hsum : (l.map fun issue => deduction issue.severity).sum
        ≤ ((l ++ [i]).map fun issue => deduction issue.severity).sum := by
      simp [List.map_append, List.sum_append]
      linarith
    exact max_le_max (le_refl 0) (min_le_min (le_refl 100) (by linarith))

theorem foldl_add_score (files : List PageReport) (c : Int) :
    files.foldl (fun s f => s + f.score) c = c + (files.map PageReport.score).sum := by
  induction files generalizing c with
  | nil => simp
  | cons a t ih => simp only [List.foldl_cons, ih, List.map_cons, List.sum_cons]; ring

/-- C3: for a non-empty list of page reports the project score equals
clamp(round(mean of page scores) - (100 - score(project issues)), 0, 100):
project issues are scored with the same deduction curve via scoreIssues,
and the resulting loss is subtracted from the rounded mean before
clamping. -/
theorem claim_C3 (files : List PageReport) (projectIssues : List Issue)
    (h : files ≠ []) : scoreProject files projectIssues = scoreProjectSpec files projectIssues := by
  unfold scoreProject scoreProjectSpec jsRound
  have hlen : files.length ≠ 0 := by
    simpa [List.length_eq_zero] using h
  rw [foldl_add_score]
  simp [hlen]

/-- Witness for claim_C3 at a concrete two-page project. -/
theorem claim_C3_w :
    ([⟨"a", 90⟩, ⟨"b", 95⟩] : List PageReport) ≠ [] ∧
      scoreProject [⟨"a", 90⟩, ⟨"b", 95⟩] [⟨"x", Severity.suggestion, Details.nodetail⟩]
        = scoreProjectSpec [⟨"a", 90⟩, ⟨"b", 95⟩] [⟨"x", Severity.suggestion, Details.nodetail⟩] :=
  ⟨by decide, claim_C3 _ _ (by decide)⟩

/-- C6: for a page whose only headings are an h1 followed by an h3 (level
list [1, 3], as for a document with an h1 element then an h3 element), the
heading rules emit exactly one heading_jump warning recording the jump
from level 1 to level 3, and emit neither missing_h1 nor multiple_h1. -/
theorem claim_C6 :
    headingIssues [1, 3] = [⟨"heading_jump", .warning, .fromTo 1 3⟩] ∧
    (headingIssues [1, 3]).countP (fun i => i.type == "heading_jump") = 1 ∧
    (headingIssues [1, 3]).all
      (fun i => !(i.type == "missing_h1") && !(i.type == "multiple_h1")) := by
  decide

theorem stripBladeExt_append (p : List Char) : stripBladeExt (p ++ bladeExt) = p := by
  unfold stripBladeExt
  rw [if_pos (by simp [List.isSuffixOf_iff_suffix])]
  rw [show (p ++ bladeExt).length - bladeExt.length = p.length by simp]
  exact List.take_left p bladeExt

theorem routeFromNoExt_indexLeaf (d : List Char) :
    routeFromNoExt (d ++ indexSuffix) = '/' :: d := by
  unfold routeFromNoExt
  rw [if_neg, if_pos (by simp [List.isSuffixOf_iff_suffix])]
  · rw [show (d ++ indexSuffix).length - indexSuffix.length = d.length by simp]
    rw [List.take_left d indexSuffix]
  · intro hcon
    have := congrArg List.length hcon
    simp [indexSuffix] at this

/-- C7: the guessed route is a pure deterministic function of the page's
relative file path; the ".blade.php" extension is stripped, a path whose
last segment is "index" collapses to its parent route, and the top-level
index file maps to the root route (e.g. "about/index" maps to "/about"). -/
theorem claim_C7 :
    (∀ p q : List Char, p = q → guessPath p = guessPath q) ∧
    (∀ p : List Char, guessPath (p ++ bladeExt) = routeFromNoExt p) ∧
    (∀ d : List Char, guessPath ((d ++ indexSuffix) ++ bladeExt) = '/' :: d) ∧
    guessPath "index.blade.php".data = "/".data ∧
    guessPath "about/index.blade.php".data = "/about".data := by
  refine ⟨fun p q h => by rw [h], ?_, ?_, by decide, by decide⟩
  · intro p
    unfold guessPath
    rw [stripBladeExt_append]
  · intro d
    unfold guessPath
    rw [stripBladeExt_append, routeFromNoExt_indexLeaf]

/-- Witness for claim_C7: the determinism conjunct applied to a concrete
path. -/
theorem claim_C7_w : guessPath "contact.blade.php".data = guessPath "contact.blade.php".data :=
  claim_C7.1 _ _ rfl

theorem jaccard_comm (A B : Finset String) : jaccard A B = jaccard B A := by
  unfold jaccard
  by_cases h : A.card = 0 ∨ B.card = 0
  · rw [if_pos h, if_pos (Or.symm h)]
  · rw [if_neg h, if_neg (fun hc => h (Or.symm hc))]
    rw [Finset.inter_comm B A, add_comm (B.card : ℚ) (A.card : ℚ)]

theorem jaccard_union_card (A B : Finset String) :
    (A.card : ℚ) + (B.card : ℚ) - ((A ∩ B).card : ℚ) = ((A ∪ B).card : ℚ) := by
  have h := Finset.card_union_add_card_inter A B
  have h2 : ((A ∪ B).card : ℚ) + ((A ∩ B).card : ℚ) = (A.card : ℚ) + (B.card : ℚ) := by
    exact_mod_cast h
  linarith

/-- C5: jaccard is symmetric, lies in [0, 1], is 0 when either set is
empty, and equals 1 on any nonempty set compared with itself. -/
theorem claim_C5 (A B : Finset String) :
    jaccard A B = jaccard B A ∧
    0 ≤ jaccard A B ∧ jaccard A B ≤ 1 ∧
    ((A = ∅ ∨ B = ∅) → jaccard A B = 0) ∧
    (A.Nonempty → jaccard A A = 1) := by
  refine ⟨jaccard_comm A B, ?_, ?_, ?_, ?_⟩
  · unfold jaccard
    by_cases h : A.card = 0 ∨ B.card = 0
    · rw [if_pos h]
    · rw [if_neg h]
      rw [jaccard_union_card]
      have hA : A.Nonempty := Finset.card_pos.mp (Nat.pos_of_ne_zero (fun hc => h (Or.inl hc)))
      have hu : 0 < ((A ∪ B).card : ℚ) := by
        have hn : 0 < (A ∪ B).card := Finset.card_pos.mpr (hA.mono Finset.subset_union_left)
        exact_mod_cast hn
      rw [if_neg (ne_of_gt hu)]
      positivity
  · unfold jaccard
    by_cases h : A.card = 0 ∨ B.card = 0
    · rw [if_pos h]; norm_num
    · rw [if_neg h]
      rw [jaccard_union_card]
      have hA : A.Nonempty := Finset.card_pos.mp (Nat.pos_of_ne_zero (fun hc => h (Or.inl hc)))
      have hu : 0 < ((A ∪ B).card : ℚ) := by
        have hn : 0 < (A ∪ B).card := Finset.card_pos.mpr (hA.mono Finset.subset_union_left)
        exact_mod_cast hn
      rw [if_neg (ne_of_gt hu)]
      rw [div_le_one hu]
      have hsub : (A ∩ B).card ≤ (A ∪ B).card :=
        Finset.card_le_card (Finset.inter_subset_left.trans Finset.subset_union_left)
      exact_mod_cast hsub
  · intro h
    unfold jaccard
    rw [if_pos]
    rcases h with h | h
    · exact Or.inl (by simp [h])
    · exact Or.inr (by simp [h])
  · intro hA
    unfold jaccard
    rw [if_neg]
    · rw [Finset.inter_self]
      have hc : (0 : ℚ) < (A.card : ℚ) := by
        exact_mod_cast Finset.card_pos.mpr hA
      rw [if_neg (by linarith)]
      field_simp
    · have := Finset.card_pos.mpr hA
      omega

theorem containsSeq_nil_pat (s : List Char) : containsSeq [] s = true := by
  cases s <;> simp [containsSeq, List.isPrefixOf]

theorem containsSeq_cons_false {pat : List Char} {c : Char} {t : List Char}
    (h : containsSeq pat (c :: t) = false) :
    pat.isPrefixOf (c :: t) = false ∧ containsSeq pat t = false := by
  simpa [containsSeq, Bool.or_eq_false_iff] using h

theorem containsSeq_false_pat_ne {pat s : List Char} (h : containsSeq pat s = false) :
    pat ≠ [] := by
  intro he
  subst he
  rw [containsSeq_nil_pat] at h
  cases h

theorem containsSeq_append_false {pat : List Char} :
    ∀ (u : List Char) {v : List Char}, containsSeq pat (u ++ v) = false →
      containsSeq pat v = false := by
  intro u
  induction u with
  | nil => intro v h; simpa using h
  | cons c t ih => intro v h; exact ih (containsSeq_cons_false h).2

theorem containsSeq_of_occurs {pat s : List Char} (h : pat <+: s) :
    containsSeq pat s = true := by
  cases s with
  | nil => simp only [containsSeq, List.isPrefixOf_iff_prefix]; exact h
  | cons c t =>
      simp only [containsSeq, Bool.or_eq_true, List.isPrefixOf_iff_prefix]
      exact Or.inl h

theorem not_prefix_protected {pat z w : List Char}
    (hz : pat.length ≤ z.length) (hcon : containsSeq pat z = false) :
    pat.isPrefixOf (z ++ w) = false := by
  by_contra hb
  have hb2 : pat.isPrefixOf (z ++ w) = true := Bool.ne_false_iff.mp hb
  have hpre : pat <+: z ++ w := List.isPrefixOf_iff_prefix.mp hb2
  have htake : pat = (z ++ w).take pat.length := List.prefix_iff_eq_take.mp hpre
  have htake2 : (z ++ w).take pat.length = z.take pat.length := by
    rw [List.take_append_eq_append_take]
    have hz0 : pat.length - z.length = 0 := Nat.sub_eq_zero_of_le hz
    simp [hz0]
  have hpz : pat <+: z := List.prefix_iff_eq_take.mpr (htake.trans htake2)
  rw [containsSeq_of_occurs hpz] at hcon
  cases hcon

theorem splitAtFirst_nil {pat : List Char} (hp : pat ≠ []) :
    splitAtFirst pat [] = none := by
  obtain ⟨p, ps, rfl⟩ := List.exists_cons_of_ne_nil hp
  simp [splitAtFirst, List.isPrefixOf]

theorem splitAtFirst_none_of {pat : List Char} (hp : pat ≠ []) :
    ∀ {s : List Char}, containsSeq pat s = false → splitAtFirst pat s = none := by
  intro s
  induction s with
  | nil => intro _; exact splitAtFirst_nil hp
  | cons c t ih =>
      intro h
      obtain ⟨h1, h2⟩ := containsSeq_cons_false h
      simp [splitAtFirst, h1, ih h2]

theorem splitAtFirst_some_shape {pat : List Char} :
    ∀ {s a b : List Char}, splitAtFirst pat s = some (a, b) → s = (a ++ pat) ++ b := by
  intro s
  induction s with
  | nil =>
      intro a b h
      simp only [splitAtFirst] at h
      split at h
      · rename_i hpre
        have hpat : pat = [] := List.prefix_nil.mp (List.isPrefixOf_iff_prefix.mp hpre)
        simp only [Option.some.injEq, Prod.mk.injEq] at h
        obtain ⟨ha, hb⟩ := h
        simp [← ha, ← hb, hpat]
      · cases h
  | cons c t ih =>
      intro a b h
      simp only [splitAtFirst] at h
      split at h
      · rename_i hpre
        simp only [Option.some.injEq, Prod.mk.injEq] at h
        obtain ⟨ha, hb⟩ := h
        subst ha
        subst hb
        have hpre2 : pat <+: c :: t := List.isPrefixOf_iff_prefix.mp hpre
        conv_lhs => rw [← List.take_append_drop pat.length (c :: t)]
        rw [← List.prefix_iff_eq_take.mp hpre2]
        simp
      · rw [Option.map_eq_some'] at h
        obtain ⟨pr, hpr, heq⟩ := h
        have hsh := ih hpr
        simp only [Prod.mk.injEq] at heq
        obtain ⟨ha, hb⟩ := heq
        subst ha
        subst hb
        simp [hsh]

theorem splitAtFirst_append {pat : List Char} (hp : pat ≠ []) :
    ∀ (a x : List Char), containsSeq pat (a ++ pat.dropLast) = false →
      splitAtFirst pat (a ++ (pat ++ x)) = some (a, x) := by
  intro a
  induction a with
  | nil =>
      intro x _
      obtain ⟨p, ps, hps⟩ := List.exists_cons_of_ne_nil hp
      subst hps
      show splitAtFirst (p :: ps) (p :: (ps ++ x)) = some ([], x)
      have hpre : (p :: ps).isPrefixOf (p :: (ps ++ x)) = true := by
        rw [List.isPrefixOf_iff_prefix]
        exact List.prefix_append (p :: ps) x
      simp only [splitAtFirst, hpre, if_true]
      have hd : (p :: (ps ++ x)).drop (p :: ps).length = x := List.drop_left (p :: ps) x
      rw [hd]
  | cons c a' ih =>
      intro x hcon
      have hlen1 : 1 ≤ pat.length :=
        Nat.pos_of_ne_zero (fun h0 => hp (List.length_eq_zero.mp h0))
      have hsplit : (c :: a') ++ (pat ++ x)
          = ((c :: a') ++ pat.dropLast) ++ (pat.getLast hp :: x) := by
        calc (c :: a') ++ (pat ++ x)
            = (c :: a') ++ ((pat.dropLast ++ [pat.getLast hp]) ++ x) := by
              rw [List.dropLast_append_getLast hp]
          _ = ((c :: a') ++ pat.dropLast) ++ (pat.getLast hp :: x) := by
              simp [List.append_assoc]
      have hnp : pat.isPrefixOf ((c :: a') ++ (pat ++ x)) = false := by
        rw [hsplit]
        apply not_prefix_protected _ hcon
        simp only [List.length_append, List.length_cons, List.length_dropLast]
        omega
      have hnp2 : pat.isPrefixOf (c :: (a' ++ (pat ++ x))) = false := hnp
      simp only [List.cons_append, splitAtFirst, List.append_eq, hnp2, Bool.false_eq_true,
        if_false]
      rw [ih x (containsSeq_cons_false hcon).2]
      rfl

theorem jsLazyReplaceAux_noclose {opn cls repl : List Char} :
    ∀ (f : Nat) (s : List Char), containsSeq cls s = false →
      jsLazyReplaceAux opn cls repl f s = s := by
  intro f s h
  cases f with
  | zero => rfl
  | succ f =>
      simp only [jsLazyReplaceAux]
      cases hsp : splitAtFirst opn s with
      | none => rfl
      | some pr =>
          obtain ⟨pre, rest⟩ := pr
          have hshape := splitAtFirst_some_shape hsp
          have hrest : containsSeq cls rest = false := by
            rw [hshape] at h
            exact containsSeq_append_false (pre ++ opn) h
          dsimp only
          rw [splitAtFirst_none_of (containsSeq_false_pat_ne hrest) hrest]

theorem jsLazyReplaceAux_noopen {opn cls repl : List Char} :
    ∀ (f : Nat) (s : List Char), containsSeq opn s = false →
      jsLazyReplaceAux opn cls repl f s = s := by
  intro f s h
  cases f with
  | zero => rfl
  | succ f =>
      simp only [jsLazyReplaceAux]
      rw [splitAtFirst_none_of (containsSeq_false_pat_ne h) h]

theorem jsLazyReplace_noclose {opn cls repl s : List Char}
    (h : containsSeq cls s = false) : jsLazyReplace opn cls repl s = s :=
  jsLazyReplaceAux_noclose _ s h

theorem jsLazyReplace_noopen {opn cls repl s : List Char}
    (h : containsSeq opn s = false) : jsLazyReplace opn cls repl s = s :=
  jsLazyReplaceAux_noopen _ s h

theorem jsLazyReplaceAux_irrel {opn cls repl : List Char} (ho : opn ≠ []) (hc : cls ≠ []) :
    ∀ (f g : Nat) (s : List Char), s.length ≤ f → s.length ≤ g →
      jsLazyReplaceAux opn cls repl f s = jsLazyReplaceAux opn cls repl g s := by
  intro f
  induction f with
  | zero =>
      intro g s hf _
      have hs : s = [] := List.length_eq_zero.mp (Nat.le_zero.mp hf)
      subst hs
      cases g with
      | zero => rfl
      | succ g => simp only [jsLazyReplaceAux]; rw [splitAtFirst_nil ho]
  | succ f ih =>
      intro g s hf hg
      cases g with
      | zero =>
          have hs : s = [] := List.length_eq_zero.mp (Nat.le_zero.mp hg)
          subst hs
          simp only [jsLazyReplaceAux]
          rw [splitAtFirst_nil ho]
      | succ g =>
          simp only [jsLazyReplaceAux]
          cases hsp : splitAtFirst opn s with
          | none => rfl
          | some pr =>
              obtain ⟨pre, rest⟩ := pr
              dsimp only
              cases hsp2 : splitAtFirst cls rest with
              | none => rfl
              | some pr2 =>
                  obtain ⟨mid, after⟩ := pr2
                  dsimp only
                  have h1 := splitAtFirst_some_shape hsp
                  have h2 := splitAtFirst_some_shape hsp2
                  have hol : 1 ≤ opn.length :=
                    Nat.pos_of_ne_zero (fun h0 => ho (List.length_eq_zero.mp h0))
                  have hcl : 1 ≤ cls.length :=
                    Nat.pos_of_ne_zero (fun h0 => hc (List.length_eq_zero.mp h0))
                  have hlen : after.length + 2 ≤ s.length := by
                    rw [h1, h2]
                    simp only [List.length_append]
                    omega
                  rw [ih g after (by omega) (by omega)]

theorem jsLazyReplaceAux_span {opn cls repl : List Char} (ho : opn ≠ []) (hc : cls ≠ [])
    {a m b : List Char} (ha : containsSeq opn (a ++ opn.dropLast) = false)
    (hm : containsSeq cls (m ++ cls.dropLast) = false) (f : Nat) :
    jsLazyReplaceAux opn cls repl (f + 1) (a ++ (opn ++ (m ++ (cls ++ b))))
      = a ++ repl ++ jsLazyReplaceAux opn cls repl f b := by
  simp only [jsLazyReplaceAux]
  rw [splitAtFirst_append ho a (m ++ (cls ++ b)) ha]
  dsimp only
  rw [splitAtFirst_append hc m b hm]

theorem jsLazyReplace_span {opn cls repl : List Char} (ho : opn ≠ []) (hc : cls ≠ [])
    (a m b : List Char) (ha : containsSeq opn (a ++ opn.dropLast) = false)
    (hm : containsSeq cls (m ++ cls.dropLast) = false) :
    jsLazyReplace opn cls repl (a ++ opn ++ m ++ cls ++ b)
      = a ++ repl ++ jsLazyReplace opn cls repl b := by
  have hassoc : a ++ opn ++ m ++ cls ++ b = a ++ (opn ++ (m ++ (cls ++ b))) := by
    simp [List.append_assoc]
  have hol : 1 ≤ opn.length :=
    Nat.pos_of_ne_zero (fun h0 => ho (List.length_eq_zero.mp h0))
  unfold jsLazyReplace
  rw [hassoc]
  have hlen : (a ++ (opn ++ (m ++ (cls ++ b)))).length
      = a.length + (opn.length + (m.length + (cls.length + b.length))) := by
    simp [List.length_append]
  obtain ⟨k, hk⟩ : ∃ k, (a ++ (opn ++ (m ++ (cls ++ b)))).length = k + 1 :=
    ⟨(a ++ (opn ++ (m ++ (cls ++ b)))).length - 1, by omega⟩
  rw [hk]
  rw [jsLazyReplaceAux_span ho hc ha hm k]
  congr 1
  exact jsLazyReplaceAux_irrel ho hc k b.length b (by omega) (le_refl _)

/-- C8: the Template Normalizer's interpolation passes replace every
double-brace interpolation span and every raw interpolation span - an
opening marker up to the nearest closing marker, with arbitrary content in
between, quotes included - by the single fixed sentinel token, and they
are total deterministic text transforms that pass unmatched markers
through unchanged (a text without a closing marker, or without an opening
marker, is left as it is). -/
theorem claim_C8 :
    (∀ a m b : List Char, containsSeq dOpen (a ++ dOpen.dropLast) = false →
        containsSeq dClose (m ++ dClose.dropLast) = false →
        replaceDouble (a ++ dOpen ++ m ++ dClose ++ b) = a ++ sentinel ++ replaceDouble b) ∧
    (∀ a m b : List Char, containsSeq rOpen (a ++ rOpen.dropLast) = false →
        containsSeq rClose (m ++ rClose.dropLast) = false →
        replaceRaw (a ++ rOpen ++ m ++ rClose ++ b) = a ++ sentinel ++ replaceRaw b) ∧
    (∀ s : List Char, containsSeq dClose s = false → replaceDouble s = s) ∧
    (∀ s : List Char, containsSeq dOpen s = false → replaceDouble s = s) ∧
    (∀ s : List Char, containsSeq rClose s = false → replaceRaw s = s) ∧
    (∀ s : List Char, containsSeq rOpen s = false → replaceRaw s = s) := by
  refine ⟨?_, ?_, ?_, ?_, ?_, ?_⟩
  · intro a m b ha hm
    exact jsLazyReplace_span (by decide) (by decide) a m b ha hm
  · intro a m b ha hm
    exact jsLazyReplace_span (by decide) (by decide) a m b ha hm
  · intro s h
    exact jsLazyReplace_noclose h
  · intro s h
    exact jsLazyReplace_noopen h
  · intro s h
    exact jsLazyReplace_noclose h
  · intro s h
    exact jsLazyReplace_noopen h

/-- Witness for claim_C8: a concrete interpolation span containing a quoted
dollar expression is replaced by the sentinel. -/
theorem claim_C8_w :
    containsSeq dOpen ("x ".data ++ dOpen.dropLast) = false ∧
    containsSeq dClose (" $name ".data ++ dClose.dropLast) = false ∧
    replaceDouble ("x ".data ++ dOpen ++ " $name ".data ++ dClose ++ " y".data)
      = "x ".data ++ sentinel ++ replaceDouble " y".data :=
  ⟨by decide, by decide, claim_C8.1 _ _ _ (by decide) (by decide)⟩

/-- C2: the Fix Engine is not idempotent. On the page source consisting of
a head with an exactly empty title element, the computed issues contain
missing_title; the first fix pass applies one title fix but - because the
JavaScript replace of the empty inner text prepends the placeholder
instead of filling the element - leaves the title element empty, so the
second pass, with issues recomputed from the first pass's output, applies
one further title fix instead of the required zero. -/
theorem claim_C2 :
    titleMissingB (stripBlade "<head><title></title></head>".data) = true ∧
    titleFixRound "<head><title></title></head>".data
      = ("<head>TODO<title></title></head>".data, 1) ∧
    titleMissingB (stripBlade "<head>TODO<title></title></head>".data) = true ∧
    titleFixRound "<head>TODO<title></title></head>".data
      = ("<head>TODOTODO<title></title></head>".data, 1) := by
  decide

theorem mem_foldr_pairDup {d : Digest} {L : List Digest} {x : String × Issue} :
    x ∈ L.foldr (fun e acc => pairDup d e ++ acc) [] ↔ ∃ e ∈ L, x ∈ pairDup d e := by
  induction L with
  | nil => simp
  | cons e t ih =>
      simp only [List.foldr_cons, List.mem_append, ih, List.mem_cons]
      constructor
      · rintro (h | ⟨e2, he2, hx⟩)
        · exact ⟨e, Or.inl rfl, h⟩
        · exact ⟨e2, Or.inr he2, hx⟩
      · rintro ⟨e2, he2 | he2, hx⟩
        · subst he2; exact Or.inl hx
        · exact Or.inr ⟨e2, he2, hx⟩

theorem mem_dup_of_pair {x : String × Issue} :
    ∀ (l : List Digest) (A : Digest) (mid : List Digest) (B : Digest) (r : List Digest),
      x ∈ pairDup A B → x ∈ duplicateContentIssues (l ++ A :: (mid ++ B :: r)) := by
  intro l
  induction l with
  | nil =>
      intro A mid B r hx
      simp only [List.nil_append, duplicateContentIssues, List.mem_append]
      exact Or.inl (mem_foldr_pairDup.mpr ⟨B, by simp, hx⟩)
  | cons d l2 ih =>
      intro A mid B r hx
      simp only [List.cons_append, duplicateContentIssues, List.mem_append]
      exact Or.inr (ih A mid B r hx)

theorem exists_pair_of_mem :
    ∀ (ds : List Digest) (x : String × Issue), x ∈ duplicateContentIssues ds →
      ∃ X Y, (∃ l mid r, ds = l ++ X :: (mid ++ Y :: r)) ∧ x ∈ pairDup X Y := by
  intro ds
  induction ds with
  | nil => intro x hx; simp [duplicateContentIssues] at hx
  | cons d rest ih =>
      intro x hx
      simp only [duplicateContentIssues, List.mem_append] at hx
      rcases hx with h | h
      · obtain ⟨e, he, hpe⟩ := mem_foldr_pairDup.mp h
        obtain ⟨mid, r, hsplit⟩ := List.append_of_mem he
        exact ⟨d, e, ⟨[], mid, r, by simp [hsplit]⟩, hpe⟩
      · obtain ⟨X, Y, ⟨l, mid, r, hdec⟩, hp⟩ := ih x h
        exact ⟨X, Y, ⟨d :: l, mid, r, by rw [hdec]; rfl⟩, hp⟩

theorem mem_pairDup_iff {A B : Digest} {x : String × Issue} :
    x ∈ pairDup A B ↔
      (200 ≤ A.wordCount ∧ 200 ≤ B.wordCount ∧
        (17 : ℚ)/20 < jaccard A.tokens B.tokens ∧
        (x = (A.path, dupContentIssue B.path (round2 (jaccard A.tokens B.tokens))) ∨
         x = (B.path, dupContentIssue A.path (round2 (jaccard A.tokens B.tokens))))) := by
  unfold pairDup
  split_ifs with h1 h2
  · simp only [List.not_mem_nil, false_iff]
    rintro ⟨ha, hb, -, -⟩
    rcases h1 with h | h <;> omega
  · have ha : 200 ≤ A.wordCount := by omega
    have hb : 200 ≤ B.wordCount := by omega
    simp only [List.mem_cons, List.not_mem_nil, or_false]
    constructor
    · rintro (rfl | rfl)
      · exact ⟨ha, hb, h2, Or.inl rfl⟩
      · exact ⟨ha, hb, h2, Or.inr rfl⟩
    · rintro ⟨-, -, -, rfl | rfl⟩
      · exact Or.inl rfl
      · exact Or.inr rfl
  · simp only [List.not_mem_nil, false_iff]
    rintro ⟨-, -, hj, -⟩
    exact h2 hj

theorem dup_mem_extract {ds : List Digest} {p q : String} {v : ℚ}
    (h : (p, dupContentIssue q v) ∈ duplicateContentIssues ds) :
    ∃ X Y, X ∈ ds ∧ Y ∈ ds ∧ X.path = p ∧ Y.path = q ∧
      200 ≤ X.wordCount ∧ 200 ≤ Y.wordCount ∧
      (17 : ℚ)/20 < jaccard X.tokens Y.tokens ∧
      v = round2 (jaccard X.tokens Y.tokens) := by
  obtain ⟨X, Y, ⟨l, mid, r, hdec⟩, hp⟩ := exists_pair_of_mem ds _ h
  have hX : X ∈ ds := by rw [hdec]; simp
  have hY : Y ∈ ds := by rw [hdec]; simp
  obtain ⟨h1, h2, h3, hor⟩ := mem_pairDup_iff.mp hp
  rcases hor with he | he
  · simp only [Prod.mk.injEq, dupContentIssue, Issue.mk.injEq, Details.otherSim.injEq,
      true_and] at he
    exact ⟨X, Y, hX, hY, he.1.symm, he.2.1.symm, h1, h2, h3, he.2.2⟩
  · simp only [Prod.mk.injEq, dupContentIssue, Issue.mk.injEq, Details.otherSim.injEq,
      true_and] at he
    refine ⟨Y, X, hY, hX, he.1.symm, he.2.1.symm, h2, h1, ?_, ?_⟩
    · rw [jaccard_comm]; exact h3
    · rw [jaccard_comm]; exact he.2.2

/-- C4: for an unordered pair of analyzed pages (with pairwise distinct
paths, as the path-keyed analysis cache guarantees), duplicate_content
warnings referencing each other with the 2-decimal rounded similarity are
attached to both pages exactly when both word counts are at least 200 and
the jaccard similarity exceeds 0.85; otherwise no duplicate_content
warning referencing the other page is produced for either page, whatever
similarity value it would carry. -/
theorem claim_C4 (ds l mid r : List Digest) (A B : Digest)
    (hds : ds = l ++ A :: (mid ++ B :: r)) (hnd : (ds.map Digest.path).Nodup) :
    (((A.path, dupContentIssue B.path (round2 (jaccard A.tokens B.tokens)))
          ∈ duplicateContentIssues ds ∧
      (B.path, dupContentIssue A.path (round2 (jaccard A.tokens B.tokens)))
          ∈ duplicateContentIssues ds)
      ↔ (200 ≤ A.wordCount ∧ 200 ≤ B.wordCount ∧
          (17 : ℚ)/20 < jaccard A.tokens B.tokens)) ∧
    (¬ (200 ≤ A.wordCount ∧ 200 ≤ B.wordCount ∧
          (17 : ℚ)/20 < jaccard A.tokens B.tokens) →
      ∀ v : ℚ, (A.path, dupContentIssue B.path v) ∉ duplicateContentIssues ds ∧
        (B.path, dupContentIssue A.path v) ∉ duplicateContentIssues ds) := by
  have hA : A ∈ ds := by rw [hds]; simp
  have hB : B ∈ ds := by rw [hds]; simp
  have hinj := List.inj_on_of_nodup_map hnd
  have key : ∀ v : ℚ, (A.path, dupContentIssue B.path v) ∈ duplicateContentIssues ds →
      200 ≤ A.wordCount ∧ 200 ≤ B.wordCount ∧ (17 : ℚ)/20 < jaccard A.tokens B.tokens := by
    intro v hv
    obtain ⟨X, Y, hX, hY, hxp, hyp, h1, h2, h3, -⟩ := dup_mem_extract hv
    have hXA : X = A := hinj hX hA hxp
    have hYB : Y = B := hinj hY hB hyp
    subst hXA
    subst hYB
    exact ⟨h1, h2, h3⟩
  have key2 : ∀ v : ℚ, (B.path, dupContentIssue A.path v) ∈ duplicateContentIssues ds →
      200 ≤ A.wordCount ∧ 200 ≤ B.wordCount ∧ (17 : ℚ)/20 < jaccard A.tokens B.tokens := by
    intro v hv
    obtain ⟨X, Y, hX, hY, hxp, hyp, h1, h2, h3, -⟩ := dup_mem_extract hv
    have hXB : X = B := hinj hX hB hxp
    have hYA : Y = A := hinj hY hA hyp
    subst hXB
    subst hYA
    refine ⟨h2, h1, ?_⟩
    rw [jaccard_comm]
    exact h3
  constructor
  · constructor
    · rintro ⟨h1, -⟩
      exact key _ h1
    · rintro ⟨h1, h2, h3⟩
      constructor
      · rw [hds]
        exact mem_dup_of_pair l A mid B r (mem_pairDup_iff.mpr ⟨h1, h2, h3, Or.inl rfl⟩)
      · rw [hds]
        exact mem_dup_of_pair l A mid B r (mem_pairDup_iff.mpr ⟨h1, h2, h3, Or.inr rfl⟩)
  · intro hn v
    exact ⟨fun hv => hn (key v hv), fun hv => hn (key2 v hv)⟩

/-- Witness for claim_C4: two 200-word pages with identical singleton token
sets (similarity 1) both receive the mutual duplicate_content warning. -/
theorem claim_C4_w :
    (("a" : String),
        dupContentIssue "b" (round2 (jaccard ({"x"} : Finset String) {"x"})))
      ∈ duplicateContentIssues
          [⟨"a", {"x"}, 200, "", ""⟩, ⟨"b", {"x"}, 200, "", ""⟩] ∧
    (("b" : String),
        dupContentIssue "a" (round2 (jaccard ({"x"} : Finset String) {"x"})))
      ∈ duplicateContentIssues
          [⟨"a", {"x"}, 200, "", ""⟩, ⟨"b", {"x"}, 200, "", ""⟩] := by
  have hj : jaccard ({"x"} : Finset String) {"x"} = 1 := by
    unfold jaccard
    simp
  refine (claim_C4 _ [] [] [] ⟨"a", {"x"}, 200, "", ""⟩ ⟨"b", {"x"}, 200, "", ""⟩ rfl
    (by decide)).1.mpr ⟨by decide, by decide, ?_⟩
  show (17 : ℚ)/20 < jaccard ({"x"} : Finset String) {"x"}
  rw [hj]
  norm_num

theorem splitLinesCh_ne_nil : ∀ s : List Char, splitLinesCh s ≠ [] := by
  intro s
  induction s with
  | nil => simp [splitLinesCh]
  | cons c t ih =>
      by_cases hc : (c == '\n') = true
      · simp [splitLinesCh, hc]
      · have hc2 : (c == '\n') = false := by simpa using hc
        simp only [splitLinesCh, hc2, Bool.false_eq_true, if_false]
        cases h : splitLinesCh t <;> simp

theorem splitLinesCh_append_cons :
    ∀ (A : List Char), (∀ c ∈ A, ¬ c = '\n') →
      ∀ rest : List Char, splitLinesCh (A ++ '\n' :: rest) = A :: splitLinesCh rest := by
  intro A
  induction A with
  | nil => intro _ rest; simp [splitLinesCh]
  | cons c t ih =>
      intro hA rest
      have hc : (c == '\n') = false := by simpa using hA c (by simp)
      simp only [List.cons_append, splitLinesCh, List.append_eq, hc, Bool.false_eq_true,
        if_false]
      rw [ih (fun x hx => hA x (List.mem_cons_of_mem c hx)) rest]

theorem splitLinesCh_head_append :
    ∀ (A : List Char), (∀ c ∈ A, ¬ c = '\n') → ∀ Z : List Char,
      ∃ L ls, splitLinesCh (A ++ Z) = (A ++ L) :: ls := by
  intro A
  induction A with
  | nil =>
      intro _ Z
      cases h : splitLinesCh Z with
      | nil => exact absurd h (splitLinesCh_ne_nil Z)
      | cons L ls => exact ⟨L, ls, by simpa using h⟩
  | cons c t ih =>
      intro hA Z
      have hc : (c == '\n') = false := by simpa using hA c (by simp)
      obtain ⟨L, ls, hL⟩ := ih (fun x hx => hA x (List.mem_cons_of_mem c hx)) Z
      refine ⟨L, ls, ?_⟩
      simp only [List.cons_append, splitLinesCh, List.append_eq, hc, Bool.false_eq_true,
        if_false]
      rw [hL]

theorem isPrefixOf_append_right {p A : List Char} (h : p.isPrefixOf A = true)
    (L : List Char) : p.isPrefixOf (A ++ L) = true := by
  rw [List.isPrefixOf_iff_prefix] at h ⊢
  exact h.trans (List.prefix_append A L)

theorem hasLineStarting_append_cons (A : List Char) (hA : ∀ c ∈ A, ¬ c = '\n')
    (pre rest : List Char) :
    hasLineStarting pre (A ++ '\n' :: rest)
      = (pre.isPrefixOf A || hasLineStarting pre rest) := by
  unfold hasLineStarting
  rw [splitLinesCh_append_cons A hA rest]
  simp [List.any_cons]

theorem hasLineStarting_first (A : List Char) (hA : ∀ c ∈ A, ¬ c = '\n')
    (pre : List Char) (hpre : pre.isPrefixOf A = true) (Z : List Char) :
    hasLineStarting pre (A ++ Z) = true := by
  obtain ⟨L, ls, hL⟩ := splitLinesCh_head_append A hA Z
  unfold hasLineStarting
  rw [hL]
  simp [List.any_cons, isPrefixOf_append_right hpre L]

theorem robots_contents_lines (S : List Char) :
    hasLineStarting "User-agent".data
        ("User-agent: *\n".data ++ "Disallow:\n".data ++ "\n".data ++ "Sitemap: ".data
          ++ S ++ "\n".data) = true ∧
    hasLineStarting "Sitemap".data
        ("User-agent: *\n".data ++ "Disallow:\n".data ++ "\n".data ++ "Sitemap: ".data
          ++ S ++ "\n".data) = true := by
  have hre : "User-agent: *\n".data ++ "Disallow:\n".data ++ "\n".data ++ "Sitemap: ".data
      ++ S ++ "\n".data
      = "User-agent: *".data ++ '\n' :: ("Disallow:".data ++ '\n' :: (([] : List Char)
          ++ '\n' :: ("Sitemap: ".data ++ (S ++ "\n".data)))) := by
    simp only [List.append_assoc]
    rfl
  rw [hre]
  rw [hasLineStarting_append_cons "User-agent: *".data (by decide) "User-agent".data _,
    hasLineStarting_append_cons "User-agent: *".data (by decide) "Sitemap".data _]
  rw [hasLineStarting_append_cons "Disallow:".data (by decide) "User-agent".data _,
    hasLineStarting_append_cons "Disallow:".data (by decide) "Sitemap".data _]
  rw [hasLineStarting_append_cons [] (by decide) "User-agent".data _,
    hasLineStarting_append_cons [] (by decide) "Sitemap".data _]
  rw [hasLineStarting_first "Sitemap: ".data (by decide) "Sitemap".data (by decide)
    (S ++ "\n".data)]
  refine ⟨?_, by simp⟩
  rw [show ("User-agent".data.isPrefixOf "User-agent: *".data) = true from by decide]
  simp

/-- C9: when the robots file is absent, a missing_robots project error is
emitted; with fix mode on, a robots_created suggestion is also emitted and
the created file contents contain a User-agent line and a Sitemap line;
and in the absent case none of the other robots checks
(missing user-agent, missing sitemap reference, disallow-all, sitemap base
mismatch) emits an issue. -/
theorem claim_C9 (fixMode : Bool) (appUrl : Option (List Char)) :
    (⟨"missing_robots", .error, .nodetail⟩ : Issue) ∈ (scanRobots none fixMode appUrl).1 ∧
    (fixMode = true →
      (⟨"robots_created", .suggestion, .nodetail⟩ : Issue)
          ∈ (scanRobots none fixMode appUrl).1 ∧
      ∃ c, (scanRobots none fixMode appUrl).2 = some c ∧
        hasLineStarting "User-agent".data c = true ∧
        hasLineStarting "Sitemap".data c = true) ∧
    (∀ i ∈ (scanRobots none fixMode appUrl).1,
      i.type ≠ "robots_missing_user_agent" ∧ i.type ≠ "robots_missing_sitemap" ∧
      i.type ≠ "robots_disallow_all" ∧ i.type ≠ "robots_sitemap_mismatch") := by
  cases fixMode with
  | false =>
      refine ⟨by simp [scanRobots], ?_, ?_⟩
      · intro h
        cases h
      · intro i hi
        simp [scanRobots] at hi
        rw [hi]
        exact ⟨by decide, by decide, by decide, by decide⟩
  | true =>
      refine ⟨by simp [scanRobots], ?_, ?_⟩
      · intro _
        refine ⟨by simp [scanRobots], robotsDefaultContents appUrl, by simp [scanRobots],
          ?_, ?_⟩
        · cases appUrl with
          | none =>
              simpa [robotsDefaultContents] using (robots_contents_lines "TODO".data).1
          | some u =>
              simpa [robotsDefaultContents]
                using (robots_contents_lines (u ++ "/sitemap.xml".data)).1
        · cases appUrl with
          | none =>
              simpa [robotsDefaultContents] using (robots_contents_lines "TODO".data).2
          | some u =>
              simpa [robotsDefaultContents]
                using (robots_contents_lines (u ++ "/sitemap.xml".data)).2
      · intro i hi
        simp [scanRobots] at hi
        rcases hi with hi | hi <;> rw [hi] <;>
          exact ⟨by decide, by decide, by decide, by decide⟩

/-- Witness for claim_C9: fix mode on with a concrete app URL. -/
theorem claim_C9_w :
    (⟨"robots_created", .suggestion, .nodetail⟩ : Issue)
        ∈ (scanRobots none true (some "https://a.test".data)).1 ∧
    hasLineStarting "User-agent".data (robotsDefaultContents (some "https://a.test".data))
        = true :=
  ⟨((claim_C9 true (some "https://a.test".data)).2.1 rfl).1, by decide⟩

theorem mem_insertAppend :
    ∀ (m : List (String × List String)) (k v : String) (kv : String × List String),
      kv ∈ insertAppend k v m → ∀ p ∈ kv.2, p = v ∨ ∃ kv2 ∈ m, p ∈ kv2.2 := by
  intro m
  induction m with
  | nil =>
      intro k v kv hkv p hp
      simp [insertAppend] at hkv
      rw [hkv] at hp
      simp at hp
      exact Or.inl hp
  | cons kv0 rest ih =>
      intro k v kv hkv p hp
      obtain ⟨k0, vs0⟩ := kv0
      simp only [insertAppend] at hkv
      by_cases hk : k0 = k
      · rw [if_pos hk] at hkv
        rcases List.mem_cons.mp hkv with he | hmem
        · subst he
          rcases List.mem_append.mp hp with h | h
          · exact Or.inr ⟨(k0, vs0), by simp, h⟩
          · simp at h
            exact Or.inl h
        · exact Or.inr ⟨kv, List.mem_cons_of_mem _ hmem, hp⟩
      · rw [if_neg hk] at hkv
        rcases List.mem_cons.mp hkv with he | hmem
        · subst he
          exact Or.inr ⟨(k0, vs0), by simp, hp⟩
        · rcases ih k v kv hmem p hp with h | ⟨kv2, h2, h3⟩
          · exact Or.inl h
          · exact Or.inr ⟨kv2, List.mem_cons_of_mem _ h2, h3⟩

theorem metaGroupMap_paths (key : Digest → String) (P : String → Prop) :
    ∀ (ds : List Digest) (m : List (String × List String)),
      (∀ kv ∈ m, ∀ p ∈ kv.2, P p) → (∀ d ∈ ds, key d ≠ "" → P d.path) →
      ∀ kv ∈ ds.foldl
          (fun m d => if key d ≠ "" then insertAppend (key d) d.path m else m) m,
        ∀ p ∈ kv.2, P p := by
  intro ds
  induction ds with
  | nil => intro m hm _ kv hkv; exact hm kv hkv
  | cons d t ih =>
      intro m hm hds kv hkv
      simp only [List.foldl_cons] at hkv
      by_cases hd : key d ≠ ""
      · rw [if_pos hd] at hkv
        refine ih _ ?_ (fun e he h => hds e (List.mem_cons_of_mem d he) h) kv hkv
        intro kv2 hkv2 p hp
        rcases mem_insertAppend m (key d) d.path kv2 hkv2 p hp with h | ⟨kv3, h3, h4⟩
        · rw [h]
          exact hds d (by simp) hd
        · exact hm kv3 h3 p h4
      · rw [if_neg hd] at hkv
        exact ih m hm (fun e he h => hds e (List.mem_cons_of_mem d he) h) kv hkv

theorem metaGroupMap_nil (key : Digest → String) :
    ∀ ds : List Digest, (∀ d ∈ ds, key d = "") → metaGroupMap key ds = [] := by
  have general : ∀ (ds : List Digest) (m : List (String × List String)),
      (∀ d ∈ ds, key d = "") →
      ds.foldl (fun m d => if key d ≠ "" then insertAppend (key d) d.path m else m) m
        = m := by
    intro ds
    induction ds with
    | nil => intro m _; rfl
    | cons d t ih =>
        intro m h
        simp only [List.foldl_cons]
        rw [if_neg (fun hn => hn (h d (by simp)))]
        exact ih m (fun e he => h e (List.mem_cons_of_mem d he))
  intro ds h
  exact general ds [] h

/-- C10: pages with empty normalized title (respectively description) are
excluded from duplicate grouping: every path listed by a duplicate_title
(duplicate_meta_description) project issue belongs to a page with a
nonempty title (description), and a page set in which every page lacks a
title (description) yields no such issue at all. -/
theorem claim_C10 :
    (∀ (ds : List Digest) (iss : Issue), iss ∈ duplicateTitleIssues ds →
      ∀ ps, iss.details = .files ps → ∀ p ∈ ps, ∃ d ∈ ds, d.path = p ∧ d.title ≠ "") ∧
    (∀ ds : List Digest, (∀ d ∈ ds, d.title = "") → duplicateTitleIssues ds = []) ∧
    (∀ (ds : List Digest) (iss : Issue), iss ∈ duplicateDescriptionIssues ds →
      ∀ ps, iss.details = .files ps →
        ∀ p ∈ ps, ∃ d ∈ ds, d.path = p ∧ d.description ≠ "") ∧
    (∀ ds : List Digest, (∀ d ∈ ds, d.description = "") →
      duplicateDescriptionIssues ds = []) := by
  refine ⟨?_, ?_, ?_, ?_⟩
  · intro ds iss hiss ps hdet p hp
    unfold duplicateTitleIssues dupMetaIssues at hiss
    rw [List.mem_filterMap] at hiss
    obtain ⟨kv, hkv, hsome⟩ := hiss
    by_cases hl : 1 < kv.2.length
    · rw [if_pos hl] at hsome
      have hiss2 : iss = ⟨"duplicate_title", .warning, .files kv.2⟩ :=
        (Option.some.inj hsome).symm
      rw [hiss2] at hdet
      simp only [Details.files.injEq] at hdet
      rw [← hdet] at hp
      exact metaGroupMap_paths Digest.title
        (fun x => ∃ d ∈ ds, d.path = x ∧ d.title ≠ "") ds [] (by simp)
        (fun d hd h => ⟨d, hd, rfl, h⟩) kv hkv p hp
    · rw [if_neg hl] at hsome
      cases hsome
  · intro ds h
    unfold duplicateTitleIssues
    rw [metaGroupMap_nil Digest.title ds h]
    rfl
  · intro ds iss hiss ps hdet p hp
    unfold duplicateDescriptionIssues dupMetaIssues at hiss
    rw [List.mem_filterMap] at hiss
    obtain ⟨kv, hkv, hsome⟩ := hiss
    by_cases hl : 1 < kv.2.length
    · rw [if_pos hl] at hsome
      have hiss2 : iss = ⟨"duplicate_meta_description", .warning, .files kv.2⟩ :=
        (Option.some.inj hsome).symm
      rw [hiss2] at hdet
      simp only [Details.files.injEq] at hdet
      rw [← hdet] at hp
      exact metaGroupMap_paths Digest.description
        (fun x => ∃ d ∈ ds, d.path = x ∧ d.description ≠ "") ds [] (by simp)
        (fun d hd h => ⟨d, hd, rfl, h⟩) kv hkv p hp
    · rw [if_neg hl] at hsome
      cases hsome
  · intro ds h
    unfold duplicateDescriptionIssues
    rw [metaGroupMap_nil Digest.description ds h]
    rfl

/-- Witness for claim_C10: two pages both lacking a title produce no
duplicate_title issue. -/
theorem claim_C10_w :
    (∀ d ∈ ([⟨"a", ∅, 0, "", ""⟩, ⟨"b", ∅, 0, "", ""⟩] : List Digest), d.title = "") ∧
    duplicateTitleIssues [⟨"a", ∅, 0, "", ""⟩, ⟨"b", ∅, 0, "", ""⟩] = [] :=
  ⟨by decide, claim_C10.2.1 _ (by decide)⟩

/-- Witness for claim_C5: the nonemptiness conjunct applied to a concrete
singleton token set. -/
theorem claim_C5_w :
    (({"x"} : Finset String) = ∅ ∨ (∅ : Finset String) = ∅) ∧
      jaccard {"x"} (∅ : Finset String) = 0 ∧
      ({"x"} : Finset String).Nonempty ∧ jaccard {"x"} ({"x"} : Finset String) = 1 := by
  refine ⟨Or.inr rfl, (claim_C5 {"x"} ∅).2.2.2.1 (Or.inr rfl), ⟨"x", by decide⟩,
    (claim_C5 {"x"} {"x"}).2.2.2.2 ⟨"x", by decide⟩⟩

end Seo
